import Mathlib

/-!
Verification of the structured-text parsing and deterministic rendering core of
the xiaohongshu-auto-poster repository.

The Python sources are shallowly embedded: strings become `List Char` (Python
`str` operations such as `find`, `strip`, `split` act on code points), Python
dicts become association lists with insert-or-update semantics, machine 32-bit
arithmetic becomes `Nat` with explicit `% 2^32`, and the process-wide random
number generator (CPython's Mersenne Twister) becomes an explicit state that is
threaded through the functions that touch it.
-/

set_option maxHeartbeats 1000000

/-- Convenience: the code points of a string literal. -/
def str (s : String) : List Char := s.data

/-- Whitespace as Python's `str.strip` / `\s` sees it, restricted to the code
points exercised in this development (ASCII whitespace plus NEL and NBSP). -/
def pyIsSpace (c : Char) : Bool :=
  c = ' ' || c = '\t' || c = '\n' || c = '\r' || c = '\x0b' || c = '\x0c' ||
  c = '\x1c' || c = '\x1d' || c = '\x1e' || c = '\x1f' || c = '\x85' || c = ' '

/-- Drop leading whitespace. -/
def stripLeading (s : List Char) : List Char := s.dropWhile pyIsSpace

/-- Drop trailing whitespace. -/
def stripTrailing (s : List Char) : List Char :=
  (s.reverse.dropWhile pyIsSpace).reverse

/-- Python `s.strip()`: drop leading and trailing whitespace. -/
def pyStrip (s : List Char) : List Char := stripTrailing (stripLeading s)

/-- Python `s.find(pat)`: index of the first occurrence of `pat` in `s`
(`none` for Python's `-1`). -/
def strFind (s pat : List Char) : Option Nat :=
  if s.take pat.length = pat then some 0
  else
    match s with
    | [] => none
    | _ :: t => (strFind t pat).map (· + 1)

/-- `pat` occurs as a contiguous substring of `s`. -/
def occursIn (pat s : List Char) : Prop :=
  ∃ i, (s.drop i).take pat.length = pat

/-- Insert-or-update on an association list: Python `d[k] = v`. -/
def upsert : List (List Char × List Char) → List Char → List Char → List (List Char × List Char)
  | [], k, v => [(k, v)]
  | (a, b) :: t, k, v => if a = k then (a, v) :: t else (a, b) :: upsert t k v

/-- Lookup in an association list: Python `d.get(k)`. -/
def alookup : List (List Char × List Char) → List Char → Option (List Char)
  | [], _ => none
  | (a, b) :: t, k => if a = k then some b else alookup t k

/-- Python `s.split(sep)` for a one-character separator: keeps empty pieces,
`pySplitChar sep [] = [[]]` just as `"".split(sep) == [""]`. -/
def pySplitChar (sep : Char) : List Char → List (List Char)
  | [] => [[]]
  | c :: t =>
    let r := pySplitChar sep t
    if c = sep then [] :: r
    else
      match r with
      | [] => [[c]]
      | h :: r' => (c :: h) :: r'

/-! ## Embedding of `StructuredPostParser.parse` (structured_parser.py, lines 30-52)

For each marker (in order) the first occurrence in `text` is located; absent
markers are skipped; the section content runs from just after the marker to the
minimum position of any *other* marker's first occurrence in the remainder
(defaulting to the end of the remainder), and is stripped before being stored
in the dict. -/

/-- The inner loop of `parse`: `end` starts at `len(rest)` and is lowered to
each other marker's first position in `rest` when that is smaller. -/
def sectionEndCode (sections : List (List Char)) (mark rest : List Char) : Nat :=
  sections.foldl
    (fun e nm =>
      if nm = mark then e
      else
        match strFind rest nm with
        | none => e
        | some j => if j < e then j else e)
    rest.length

/-- The value `parse` stores for a marker that occurs in `text`. -/
def sectionValueCode (sections : List (List Char)) (text mark : List Char) : Option (List Char) :=
  match strFind text mark with
  | none => none
  | some st =>
    let rest := text.drop (st + mark.length)
    some (pyStrip (rest.take (sectionEndCode sections mark rest)))

/-- `StructuredPostParser.parse`, section-splitting part: the resulting dict. -/
def splitSections (sections : List (List Char)) (text : List Char) :
    List (List Char × List Char) :=
  sections.foldl
    (fun acc mark =>
      match sectionValueCode sections text mark with
      | none => acc
      | some v => upsert acc mark v)
    []

/-! ## Embedding of `StructuredPostParser.extract_tags` (structured_parser.py, lines 68-79)

`re.findall(r"#([^#\s]+)", tags_section)[:8]`: scan left to right; at each `#`
take the maximal nonempty run of characters that are neither `#` nor
whitespace; the scan resumes after the run, so a `#` that terminated a run can
start the next match. -/

def findTags : List Char → List (List Char)
  | [] => []
  | c :: rest =>
    if c = '#' then
      let run := rest.takeWhile (fun d => d ≠ '#' && !pyIsSpace d)
      if run.isEmpty then findTags rest
      else run :: findTags (rest.drop run.length)
    else findTags rest
termination_by s => s.length
decreasing_by
  all_goals simp [List.length_drop]
  all_goals omega

/-- `extract_tags`: the findall result capped at 8 entries. -/
def extract_tags (tags_section : List Char) : List (List Char) :=
  (findTags tags_section).take 8

/-! ## Embedding of `StructuredPostParser.extract_meta` (structured_parser.py, lines 81-102) -/

/-- One iteration of the meta loop: strip the line, and if it contains `=`
split once at the first `=` and store the stripped key/value pair. -/
def metaStep (d : List (List Char × List Char)) (line : List Char) :
    List (List Char × List Char) :=
  let l := pyStrip line
  if '=' ∈ l then
    upsert d (pyStrip (l.takeWhile (· ≠ '='))) (pyStrip ((l.dropWhile (· ≠ '=')).tail))
  else d

/-- `extract_meta`: `None` on an empty section, else parse `key=value` lines,
returning `None` when no entry was produced. -/
def extract_meta (meta_section : List Char) : Option (List (List Char × List Char)) :=
  if meta_section.isEmpty then none
  else
    let meta := (pySplitChar '\n' meta_section).foldl metaStep []
    if meta.isEmpty then none else some meta

/-! ## MD5 (xhs_word_renderer.py line 37: `int(hashlib.md5(word.encode()).hexdigest()[:8], 16)`)

The renderer seeds the process RNG with the first eight hex characters of the
MD5 digest of the UTF-8 encoded word. MD5 is implemented here over byte lists
with `Nat` arithmetic mod `2^32`. -/

/-- UTF-8 encoding of one code point (Python `str.encode()`). -/
def utf8Char (c : Char) : List Nat :=
  let n := c.toNat
  if n < 0x80 then [n]
  else if n < 0x800 then [0xc0 + n / 64, 0x80 + n % 64]
  else if n < 0x10000 then [0xe0 + n / 4096, 0x80 + (n / 64) % 64, 0x80 + n % 64]
  else [0xf0 + n / 262144, 0x80 + (n / 4096) % 64, 0x80 + (n / 64) % 64, 0x80 + n % 64]

/-- UTF-8 encoding of a string as a byte list. -/
def utf8Encode (s : List Char) : List Nat :=
  s.foldr (fun c acc => utf8Char c ++ acc) []

/-- The 64 MD5 sine-table constants (RFC 1321 T-table). -/
def md5K : List Nat :=
  [0xd76aa478, 0xe8c7b756, 0x242070db, 0xc1bdceee,
   0xf57c0faf, 0x4787c62a, 0xa8304613, 0xfd469501,
   0x698098d8, 0x8b44f7af, 0xffff5bb1, 0x895cd7be,
   0x6b901122, 0xfd987193, 0xa679438e, 0x49b40821,
   0xf61e2562, 0xc040b340, 0x265e5a51, 0xe9b6c7aa,
   0xd62f105d, 0x02441453, 0xd8a1e681, 0xe7d3fbc8,
   0x21e1cde6, 0xc33707d6, 0xf4d50d87, 0x455a14ed,
   0xa9e3e905, 0xfcefa3f8, 0x676f02d9, 0x8d2a4c8a,
   0xfffa3942, 0x8771f681, 0x6d9d6122, 0xfde5380c,
   0xa4beea44, 0x4bdecfa9, 0xf6bb4b60, 0xbebfbc70,
   0x289b7ec6, 0xeaa127fa, 0xd4ef3085, 0x04881d05,
   0xd9d4d039, 0xe6db99e5, 0x1fa27cf8, 0xc4ac5665,
   0xf4292244, 0x432aff97, 0xab9423a7, 0xfc93a039,
   0x655b59c3, 0x8f0ccc92, 0xffeff47d, 0x85845dd1,
   0x6fa87e4f, 0xfe2ce6e0, 0xa3014314, 0x4e0811a1,
   0xf7537e82, 0xbd3af235, 0x2ad7d2bb, 0xeb86d391]

/-- The 64 MD5 per-round left-rotation amounts. -/
def md5S : List Nat :=
  [7, 12, 17, 22, 7, 12, 17, 22, 7, 12, 17, 22, 7, 12, 17, 22,
   5, 9, 14, 20, 5, 9, 14, 20, 5, 9, 14, 20, 5, 9, 14, 20,
   4, 11, 16, 23, 4, 11, 16, 23, 4, 11, 16, 23, 4, 11, 16, 23,
   6, 10, 15, 21, 6, 10, 15, 21, 6, 10, 15, 21, 6, 10, 15, 21]

/-- 32-bit left rotation. -/
def rotl32 (x n : Nat) : Nat :=
  ((x <<< n) ||| (x >>> (32 - n))) % 4294967296

/-- Little-endian 32-bit word `g` of a 64-byte block. -/
def blockWord (block : List Nat) (g : Nat) : Nat :=
  block.getD (4 * g) 0 + 256 * block.getD (4 * g + 1) 0 +
    65536 * block.getD (4 * g + 2) 0 + 16777216 * block.getD (4 * g + 3) 0

/-- One of the 64 MD5 operations on the running state `(a, b, c, d)`. -/
def md5Op (block : List Nat) (st : Nat × Nat × Nat × Nat) (i : Nat) :
    Nat × Nat × Nat × Nat :=
  let (a, b, c, d) := st
  let fg : Nat × Nat :=
    if i < 16 then ((b &&& c) ||| ((b ^^^ 0xffffffff) &&& d), i)
    else if i < 32 then ((d &&& b) ||| ((d ^^^ 0xffffffff) &&& c), (5 * i + 1) % 16)
    else if i < 48 then (b ^^^ c ^^^ d, (3 * i + 5) % 16)
    else (c ^^^ (b ||| (d ^^^ 0xffffffff)), (7 * i) % 16)
  let tmp := (a + fg.1 + md5K.getD i 0 + blockWord block fg.2) % 4294967296
  (d, (b + rotl32 tmp (md5S.getD i 0)) % 4294967296, b, c)

/-- MD5 compression of one 64-byte block into the chaining state. -/
def md5Compress (h : Nat × Nat × Nat × Nat) (block : List Nat) :
    Nat × Nat × Nat × Nat :=
  let st := (List.range 64).foldl (md5Op block) h
  ((h.1 + st.1) % 4294967296, (h.2.1 + st.2.1) % 4294967296,
   (h.2.2.1 + st.2.2.1) % 4294967296, (h.2.2.2 + st.2.2.2) % 4294967296)

/-- Little-endian 8-byte encoding of the 64-bit message bit length. -/
def le8 (n : Nat) : List Nat :=
  (List.range 8).map (fun k => n / 256 ^ k % 256)

/-- MD5 padding: `0x80`, zeros to 56 mod 64, then the bit length. -/
def md5Pad (msg : List Nat) : List Nat :=
  msg ++ 0x80 :: List.replicate ((119 - msg.length % 64) % 64) 0 ++
    le8 (8 * msg.length % 18446744073709551616)

/-- Split a byte list into 64-byte blocks. -/
def chunks64 : List Nat → List (List Nat)
  | [] => []
  | c :: t => (c :: t).take 64 :: chunks64 ((c :: t).drop 64)
termination_by l => l.length
decreasing_by simp [List.length_drop]; omega

/-- The full MD5 state of a byte message. -/
def md5Digest (msg : List Nat) : Nat × Nat × Nat × Nat :=
  (chunks64 (md5Pad msg)).foldl md5Compress
    (0x67452301, 0xefcdab89, 0x98badcfe, 0x10325476)

/-- Byte swap of a 32-bit word. -/
def bswap32 (x : Nat) : Nat :=
  x % 256 * 16777216 + x / 256 % 256 * 65536 + x / 65536 % 256 * 256 +
    x / 16777216 % 256

/-- `int(hashlib.md5(bytes).hexdigest()[:8], 16)`: the first eight hex digits
of the digest are the little-endian bytes of the final `A` word, so the seed
is the byte swap of that word. -/
def md5Seed (msg : List Nat) : Nat := bswap32 (md5Digest msg).1

/-! ## CPython's Mersenne Twister (`random.seed` / `random.choice`)

`render_xhs_word_post` calls `random.seed(seed)` — overwriting the state of
the process-wide generator — and then `random.choice` twice. The generator
state is made explicit: `MTState` is the 624-word array together with the
output index, exactly as in CPython's `_randommodule.c`. -/

/-- The state of the process-wide Mersenne Twister: the 624-word `mt` array
and the index of the next untempered word. -/
structure MTState where
  mt : List Nat
  idx : Nat
deriving DecidableEq, Repr

/-- `init_genrand`: fill positions `1..623` from the previous word. -/
def initGenrandAux : Nat → Nat → Nat → List Nat
  | 0, _, _ => []
  | k + 1, prev, i =>
    let v := (1812433253 * (prev ^^^ (prev >>> 30)) + i) % 4294967296
    v :: initGenrandAux k v (i + 1)

/-- `init_genrand(s)`: the base initialization of the `mt` array. -/
def mtInitGenrand (s : Nat) : List Nat :=
  s % 4294967296 :: initGenrandAux 623 (s % 4294967296) 1

/-- First mixing pass of `init_by_array` (the loop with multiplier 1664525,
adding key words, with the wrap `mt[0] = mt[623]; i = 1`). Returns the array
together with the final `i`, which the second pass continues from. -/
def ibaPass1 : Nat → Nat → Nat → List Nat → List Nat → List Nat × Nat
  | 0, i, _, mt, _ => (mt, i)
  | k + 1, i, j, mt, key =>
    let prev := mt.getD (i - 1) 0
    let v := ((mt.getD i 0 ^^^ (prev ^^^ (prev >>> 30)) * 1664525 % 4294967296) +
              key.getD j 0 + j) % 4294967296
    let mt1 := mt.set i v
    let i1 := i + 1
    let p := if i1 ≥ 624 then (mt1.set 0 (mt1.getD 623 0), 1) else (mt1, i1)
    ibaPass1 k p.2 (if j + 1 ≥ key.length then 0 else j + 1) p.1 key

/-- Second mixing pass of `init_by_array` (multiplier 1566083941, subtracting
the index in 32-bit arithmetic). -/
def ibaPass2 : Nat → Nat → List Nat → List Nat
  | 0, _, mt => mt
  | k + 1, i, mt =>
    let prev := mt.getD (i - 1) 0
    let v := ((mt.getD i 0 ^^^ (prev ^^^ (prev >>> 30)) * 1566083941 % 4294967296) +
              4294967296 - i) % 4294967296
    let mt1 := mt.set i v
    let i1 := i + 1
    let p := if i1 ≥ 624 then (mt1.set 0 (mt1.getD 623 0), 1) else (mt1, i1)
    ibaPass2 k p.2 p.1

/-- `init_by_array(key)`: seed the array from a key, then pin `mt[0]`. The
index `i` is carried from the first loop into the second. -/
def mtInitByArray (key : List Nat) : List Nat :=
  let p := ibaPass1 (max 624 key.length) 1 0 (mtInitGenrand 19650218) key
  (ibaPass2 623 p.2 p.1).set 0 2147483648

/-- `random.seed(n)` splits the (non-negative) integer into 32-bit words,
least significant first; `0` gives the one-word key `[0]`. -/
def seedKey (n : Nat) : List Nat :=
  if h : n = 0 then [0]
  else n % 4294967296 :: (if n < 4294967296 then [] else seedKey (n / 4294967296))
termination_by n
decreasing_by exact Nat.div_lt_self (Nat.pos_of_ne_zero h) (by omega)

/-- The generator state right after `random.seed(n)`: `init_by_array` leaves
the output index at 624, forcing a twist on the first draw. -/
def mtSeed (n : Nat) : MTState := ⟨mtInitByArray (seedKey n), 624⟩

/-- The in-place twist regenerating all 624 words. -/
def mtTwist (mt : List Nat) : List Nat :=
  (List.range 624).foldl
    (fun acc i =>
      let y := acc.getD i 0 &&& 2147483648 ||| (acc.getD ((i + 1) % 624) 0 &&& 2147483647)
      acc.set i (acc.getD ((i + 397) % 624) 0 ^^^ (y >>> 1) ^^^
                 (if y % 2 = 1 then 2567483615 else 0)))
    mt

/-- `genrand_uint32`: twist if the index is exhausted, then temper one word. -/
def mtNext (g : MTState) : Nat × MTState :=
  let g1 : MTState := if g.idx ≥ 624 then ⟨mtTwist g.mt, 0⟩ else g
  let y0 := g1.mt.getD g1.idx 0
  let y1 := y0 ^^^ (y0 >>> 11)
  let y2 := y1 ^^^ (y1 <<< 7 &&& 2636928640)
  let y3 := y2 ^^^ (y2 <<< 15 &&& 4022730752)
  (y3 ^^^ (y3 >>> 18), ⟨g1.mt, g1.idx + 1⟩)

/-- `random.getrandbits(k)` for `0 < k ≤ 32`: the top `k` bits of one draw. -/
def getrandbits (k : Nat) (g : MTState) : Nat × MTState :=
  let p := mtNext g
  (p.1 >>> (32 - k), p.2)

/-- Python `int.bit_length()`. -/
def pyBitLength (n : Nat) : Nat := if n = 0 then 0 else Nat.log2 n + 1

/-- The rejection loop of `Random._randbelow_with_getrandbits`: draw `k` bits
until the value is below `n`. The loop is given fuel; every concrete
evaluation in this file terminates far inside it, and on exhaustion the last
draw is returned. -/
def randbelowGo : Nat → Nat → Nat → MTState → Nat × MTState
  | 0, k, _, g => getrandbits k g
  | fuel + 1, k, n, g =>
    let p := getrandbits k g
    if p.1 < n then p else randbelowGo fuel k n p.2

/-- `Random._randbelow(n)`: `k = n.bit_length()` and the rejection loop. -/
def pyRandbelow (n : Nat) (g : MTState) : Nat × MTState :=
  randbelowGo 64 (pyBitLength n) n g

/-- `random.choice(seq)` for a non-empty sequence: `seq[_randbelow(len(seq))]`
(on an empty sequence CPython raises IndexError before drawing; the renderer
only ever passes the fixed non-empty header/footer lists). -/
def pyChoice (seq : List (List Char)) (g : MTState) : List Char × MTState :=
  let p := pyRandbelow seq.length g
  (seq.getD p.1 [], p.2)

/-! ## Embedding of `render_xhs_word_post` (renderers/xhs_word_renderer.py)

`WordPost` is a `TypedDict` with `total=False`: every field is optional. The
renderer seeds the process RNG from the MD5 of the word, picks a header and a
footer with `random.choice`, and assembles the post line by line. Note that
line 49 of the source reads `data["word"]` by subscript: on a record without
the `word` key this raises `KeyError`, which the embedding models as an
`Except` error value. -/

/-- The `WordPost` record type (all fields optional, `total=False`). -/
structure WordPost where
  word : Option (List Char) := none
  definitions : Option (List Char) := none
  memory_story : Option (List Char) := none
  examples : Option (List (List Char)) := none
  related : Option (List (List Char)) := none
deriving DecidableEq

/-- The fixed header template list `DEFAULT_HEADERS`. -/
def DEFAULT_HEADERS : List (List Char) :=
  [str "📘 今天一起轻松记一个高频单词👍 点赞支持这个英语学习帖吧~ 📊 收藏可以随时回顾单词讲解哦",
   str "📚 每天一个单词，慢慢把英语捡回来～👍 点赞 + 收藏更好吸收"]

/-- The fixed footer template list `DEFAULT_FOOTERS`. -/
def DEFAULT_FOOTERS : List (List Char) :=
  [str "👍 点赞是对我最大的支持，收藏起来反复看～",
   str "📌 建议收藏，下次刷到还能复习这个单词"]

/-- Python `x or d` for an optional string: the default replaces both a
missing and an empty (falsy) value. -/
def orDefaultStr (o : Option (List Char)) (d : List Char) : List Char :=
  match o with
  | none => d
  | some s => if s.isEmpty then d else s

/-- Line 36: `(data.get("word") or "word").strip()`. -/
def renderSeedWord (w : Option (List Char)) : List Char :=
  pyStrip (orDefaultStr w (str "word"))

/-- Line 37: the 32-bit seed derived from the word. -/
def wordSeed (w : Option (List Char)) : Nat :=
  md5Seed (utf8Encode (renderSeedWord w))

/-- A raised Python exception, as a value. -/
inductive PyErr
  | keyError (k : List Char)
deriving DecidableEq

/-- Lines 38-40: `random.seed(seed)` followed by the two `random.choice`
calls. The incoming process RNG state is discarded by the reseeding; the state
after both draws is returned. -/
def chooseHeaderFooter (w : Option (List Char)) : (List Char × List Char) × MTState :=
  let hp := pyChoice DEFAULT_HEADERS (mtSeed (wordSeed w))
  let fp := pyChoice DEFAULT_FOOTERS hp.2
  ((hp.1, fp.1), fp.2)

/-- `render_xhs_word_post(data)`, with the process-wide RNG state passed
explicitly: the result is the rendered text (or the `KeyError` raised by
`data["word"]` at line 49 when the record has no `word` key) together with
the RNG state the call leaves behind. -/
def render_xhs_word_post (data : WordPost) (_g : MTState) :
    Except PyErr (List Char) × MTState :=
  let hf := chooseHeaderFooter data.word
  let out : Except PyErr (List Char) :=
    match data.word with
    | none => .error (.keyError (str "word"))
    | some w =>
      let lines :=
        [hf.1.1, [], w, [], data.definitions.getD [], [],
         data.memory_story.getD [], [], str "实用例句："] ++
        (data.examples.getD []).map (fun ex => str "- " ++ ex) ++ [[]] ++
        (match data.related with
         | some (r :: rs) =>
           str "相关词汇扩展：" :: ((r :: rs).map (fun x => str "- " ++ x)) ++ [[]]
         | _ => []) ++
        [hf.1.2]
      .ok (pyStrip (List.intercalate ['\n'] lines))
  (out, hf.2)

/-! ## Embedding of `WordLearningParser` (xiaohongshu-auto-poster/content_generator.py)

The subclass fixes the six section markers and `_post_process` maps the split
sections to the business record. Every operation involved is total, so the
embedding is a total function: parsing never fails, missing sections fall back
to defaults. -/

/-- The six ordered section markers (`WordLearningParser.sections`). -/
def wordSections : List (List Char) :=
  [str "【标题】", str "【单词卡】", str "【配图建议】", str "【正文】", str "【标签】", str "【meta】"]

/-- The five-tag fallback set used when tag extraction yields nothing. -/
def defaultTags : List (List Char) :=
  [str "英语学习", str "记单词", str "英语词汇", str "学习打卡", str "英语干货"]

/-- The record built by `_post_process`. -/
structure WordLearnRecord where
  word : List Char
  title : List Char
  content : List Char
  tags : List (List Char)
  image_suggestion : Option (List Char)
  meta : Option (List (List Char × List Char))
deriving DecidableEq

/-- Python `s or d` for a plain string value. -/
def orElseStr (s d : List Char) : List Char := if s.isEmpty then d else s

/-- `WordLearningParser._post_process` (lines 31-55): defaults for title and
tags, `content` as word card and body joined by a blank line, meta parsing. -/
def post_process_word_learning (sections : List (List Char × List Char))
    (word : List Char) : WordLearnRecord :=
  let get := fun k => (alookup sections k).getD []
  let title := orElseStr (pyStrip (get (str "【标题】"))) (str "📚 今天学单词：" ++ word)
  let card := pyStrip (get (str "【单词卡】"))
  let image := pyStrip (get (str "【配图建议】"))
  let body := pyStrip (get (str "【正文】"))
  let tagsRaw := pyStrip (get (str "【标签】"))
  let metaRaw := pyStrip (get (str "【meta】"))
  let tags0 := extract_tags tagsRaw
  let tags := if tags0.isEmpty then defaultTags else tags0
  { word := word
    title := title
    content := if card.isEmpty then body else pyStrip (card ++ str "\n\n" ++ body)
    tags := tags.take 8
    image_suggestion := if image.isEmpty then none else some image
    meta := extract_meta metaRaw }

/-- `WordLearningParser.parse`: split on the six markers, then post-process.
Total on every input text: malformed model output degrades to defaults. -/
def word_learning_parse (text word : List Char) : WordLearnRecord :=
  post_process_word_learning (splitSections wordSections text) word

/-! ## Embedding of `ContentGenerator.pick_unused_word` (content_generator.py, lines 168-193)

The word pool (read from the level's word file by `get_words_for_level`) is a
parameter; `has_posted` is the caller-supplied deduplication predicate, and
`random.choice` over the unused candidates is modelled by an arbitrary
in-range draw index. -/

/-- Modelled from the spec: the `PROMPT_VERSION` constant of the missing
`prompts.word_learning` module (the spec's example meta value is
`word_learning_v1`). Its value is irrelevant to the properties proved here. -/
def PROMPT_VERSION : List Char := str "word_learning_v1"

/-- `AllWordsUsedError(level)`: the distinct exhaustion condition. -/
structure AllWordsUsedError where
  level : List Char
deriving DecidableEq

/-- The unused candidates: `[w for w in words if not has_posted(w.strip(), level, PROMPT_VERSION)]`. -/
def unusedWords (pool : List (List Char)) (level : List Char)
    (has_posted : List Char → List Char → List Char → Bool) : List (List Char) :=
  pool.filter (fun w => !has_posted (pyStrip w) level PROMPT_VERSION)

/-- `pick_unused_word`: raise `AllWordsUsedError(level)` when nothing is left,
else return `random.choice(unused).strip()`; the draw of `random.choice` is
modelled by an index `draw` into the unused list. -/
def pick_unused_word (pool : List (List Char)) (level : List Char)
    (has_posted : List Char → List Char → List Char → Bool) (draw : Nat) :
    Except AllWordsUsedError (List Char) :=
  let unused := unusedWords pool level has_posted
  if unused.isEmpty then .error ⟨level⟩
  else .ok (pyStrip (unused.getD draw []))

/-- A concrete generator state (all-zero array, index 0) standing for the
process RNG state before a call. -/
def mtZero : MTState := ⟨List.replicate 624 0, 0⟩

/-! ## Specification-side definitions

These follow the wording of the claims (not the code); the theorems below
compare them with the embedded source functions. -/

/-- Claim C2: the section content ends at the minimum position, within the
remainder, of any other marker's occurrence, or at the end of the text when
no other marker occurs (the earliest occurrence of each marker is its
`strFind` position). -/
def specSectionEnd (sections : List (List Char)) (mark rest : List Char) : Nat :=
  ((sections.filter (· ≠ mark)).filterMap (strFind rest)).foldl min rest.length

/-- Claim C2: a marker with no occurrence produces no entry; otherwise the
entry is the whitespace-trimmed text from just after the marker's first
occurrence up to `specSectionEnd`. -/
def specSectionValue (sections : List (List Char)) (text mark : List Char) :
    Option (List Char) :=
  (strFind text mark).map (fun st =>
    let rest := text.drop (st + mark.length)
    pyStrip (rest.take (specSectionEnd sections mark rest)))

/-- Claim C5, read literally: at each tag-prefix character the tag extends
until whitespace (only the prefix is stripped), the scan resuming after the
run. -/
def tagsClaimC5 : List Char → List (List Char)
  | [] => []
  | c :: rest =>
    if c = '#' then
      let run := rest.takeWhile (fun d => !pyIsSpace d)
      run :: tagsClaimC5 (rest.drop run.length)
    else tagsClaimC5 rest
termination_by s => s.length
decreasing_by
  all_goals simp [List.length_drop]
  all_goals omega

/-- Claim C5 as amended: a tag is a maximal nonempty run of characters that
are neither whitespace nor another tag-prefix character, immediately
following a tag-prefix character, with the scan resuming after the run. -/
def tagsAmendedC5 : List Char → List (List Char)
  | [] => []
  | c :: rest =>
    if c = '#' then
      let p := rest.span (fun d => d ≠ '#' && !pyIsSpace d)
      if p.1 = [] then tagsAmendedC5 rest else p.1 :: tagsAmendedC5 p.2
    else tagsAmendedC5 rest
termination_by s => s.length
decreasing_by
  all_goals simp [List.span_eq_take_drop]
  all_goals exact Nat.lt_succ_of_le (List.dropWhile_sublist _).length_le

/-- Claim C7: the pair a `key=value` line contributes — split at the first
`=`, both sides trimmed. -/
def specMetaPair (line : List Char) : List Char × List Char :=
  (pyStrip (line.takeWhile (· ≠ '=')), pyStrip ((line.dropWhile (· ≠ '=')).tail))

/-- Claim C7: split into lines, keep the lines containing `=`, store their
trimmed pairs; absent (`none`) exactly when zero entries were produced. -/
def specMeta (s : List Char) : Option (List (List Char × List Char)) :=
  let entries := ((pySplitChar '\n' s).filter (fun l => '=' ∈ l)).map specMetaPair
  if entries.isEmpty then none
  else some (entries.foldl (fun d p => upsert d p.1 p.2) [])

/-! ## The body-field extractor (spec §4.2), modelled from the spec

The repository's renderer consumes `memory_story`/`examples`/`related`
fields, but the extractor that produces them is not among the sources; it is
modelled here from spec §4.2. -/

/-- Case-insensitive first match position (spec: patterns are matched
case-insensitively anywhere in the text). -/
def ciFind (s pat : List Char) : Option Nat :=
  strFind (s.map Char.toLower) (pat.map Char.toLower)

/-- Modelled from the spec: try each fallback boundary pattern in turn and
accept the first one that matches anywhere (case-insensitively), returning
its position and the pattern. -/
def findBoundary (pats : List (List Char)) (s : List Char) :
    Option (Nat × List Char) :=
  match pats with
  | [] => none
  | p :: ps =>
    match ciFind s p with
    | some i => some (i, p)
    | none => findBoundary ps s

/-- The first paragraph: text up to the first blank line (double newline). -/
def firstParagraph (s : List Char) : List Char :=
  match strFind s (str "\n\n") with
  | some i => s.take i
  | none => s

/-- Modelled from the spec: an accepted example line — a bullet line (dash or
bullet dot, marker stripped), a numbered line (digits then a period or
full-width period, prefix stripped), or a line containing a language-pair cue
substring (kept verbatim); other lines are discarded. -/
def exampleLine (cues : List (List Char)) (l : List Char) : Option (List Char) :=
  let t := pyStrip l
  match t with
  | '-' :: rest => some (pyStrip rest)
  | '•' :: rest => some (pyStrip rest)
  | _ =>
    let ds := t.takeWhile Char.isDigit
    let r := t.drop ds.length
    if !ds.isEmpty && (r.head? = some '.' || r.head? = some '．') then
      some (pyStrip r.tail)
    else if cues.any (fun cue => (strFind t cue).isSome) then some t
    else none

/-- Modelled from the spec: an accepted related-vocabulary line — bullet
lines only, marker stripped. -/
def relatedLine (l : List Char) : Option (List Char) :=
  match pyStrip l with
  | '-' :: rest => some (pyStrip rest)
  | '•' :: rest => some (pyStrip rest)
  | _ => none

/-- Modelled from the spec: `extractBodyFields(bodyText)` of §4.2 — the
examples/related boundary pattern lists and the language-pair cue list are
parameters, since the spec leaves them open. Step 1: with no examples
boundary anywhere, the memory story is the first paragraph of the body and
both lists are empty. Steps 2-6 as in the spec. -/
def extractBodyFields (exPats relPats cues : List (List Char))
    (body : List Char) : List Char × List (List Char) × List (List Char) :=
  match findBoundary exPats body with
  | none => (firstParagraph body, [], [])
  | some (i, p) =>
    let memory := firstParagraph (body.take i)
    let rest := body.drop (i + p.length)
    let blocks :=
      match findBoundary relPats rest with
      | some (q, p') => (rest.take q, rest.drop (q + p'.length))
      | none => (rest, [])
    (memory, (pySplitChar '\n' blocks.1).filterMap (exampleLine cues),
     (pySplitChar '\n' blocks.2).filterMap relatedLine)

/-! ## Basic lemmas about occurrences, find, folds and dictionaries -/

/-- Occurrence as an append decomposition. -/
theorem occursIn_iff_append {pat s : List Char} :
    occursIn pat s ↔ ∃ a b, s = a ++ pat ++ b := by
  constructor
  · rintro ⟨i, hi⟩
    refine ⟨s.take i, (s.drop i).drop pat.length, ?_⟩
    conv_lhs => rw [← List.take_append_drop i s, ← List.take_append_drop pat.length (s.drop i)]
    rw [hi, List.append_assoc]
  · rintro ⟨a, b, rfl⟩
    refine ⟨a.length, ?_⟩
    rw [List.append_assoc, List.drop_left, List.take_left]

/-- An occurrence inside a larger context is an occurrence. -/
theorem occursIn_append {pat m : List Char} (x y : List Char)
    (h : occursIn pat m) : occursIn pat (x ++ m ++ y) := by
  obtain ⟨a, b, rfl⟩ := occursIn_iff_append.mp h
  exact occursIn_iff_append.mpr ⟨x ++ a, b ++ y, by simp⟩

/-- `strFind` finds an occurrence no later than any given one. -/
theorem strFind_le {s pat : List Char} :
    ∀ {i : Nat}, (s.drop i).take pat.length = pat →
      ∃ j, strFind s pat = some j ∧ j ≤ i := by
  induction s with
  | nil =>
    intro i hi
    simp only [List.drop_nil, List.take_nil] at hi
    exact ⟨0, by simp [strFind, ← hi], Nat.zero_le i⟩
  | cons c t ih =>
    intro i hi
    by_cases hc : (c :: t).take pat.length = pat
    · exact ⟨0, by simp [strFind, hc], Nat.zero_le i⟩
    · match i with
      | 0 => exact absurd hi hc
      | i' + 1 =>
        obtain ⟨j, hj, hle⟩ := ih (i := i') hi
        exact ⟨j + 1, by simp [strFind, hc, hj], Nat.succ_le_succ hle⟩

/-- A left fold of `min` is below its initial value. -/
theorem foldl_min_le_init : ∀ (l : List Nat) (e : Nat), l.foldl min e ≤ e := by
  intro l
  induction l with
  | nil => intro e; exact Nat.le_refl e
  | cons a t ih =>
    intro e
    exact Nat.le_trans (ih (min e a)) (Nat.min_le_left e a)

/-- A left fold of `min` is below every list element. -/
theorem foldl_min_le_mem {x : Nat} : ∀ {l : List Nat} (e : Nat), x ∈ l → l.foldl min e ≤ x := by
  intro l
  induction l with
  | nil => intro e h; cases h
  | cons a t ih =>
    intro e h
    rcases List.mem_cons.mp h with rfl | hx
    · exact Nat.le_trans (foldl_min_le_init t (min e x)) (Nat.min_le_right e x)
    · exact ih (min e a) hx

/-- Looking up after an insert-or-update. -/
theorem alookup_upsert (d : List (List Char × List Char)) (k v m : List Char) :
    alookup (upsert d k v) m = if m = k then some v else alookup d m := by
  induction d with
  | nil =>
    by_cases h : m = k
    · subst h; simp [upsert, alookup]
    · have h' : ¬k = m := fun e => h e.symm
      simp [upsert, alookup, h, h']
  | cons p t ih =>
    obtain ⟨a, b⟩ := p
    by_cases hak : a = k
    · subst hak
      by_cases hma : m = a
      · subst hma; simp [upsert, alookup]
      · have h' : ¬a = m := fun e => hma e.symm
        simp [upsert, alookup, hma, h']
    · by_cases hma : m = a
      · subst hma
        have h' : ¬m = k := hak
        simp [upsert, alookup, hak, h']
      · have h'' : ¬a = m := fun e => hma e.symm
        simp [upsert, alookup, hak, hma, h'', ih]

/-- An insert-or-update never produces the empty dictionary. -/
theorem upsert_ne_nil (d : List (List Char × List Char)) (k v : List Char) :
    upsert d k v ≠ [] := by
  cases d with
  | nil => simp [upsert]
  | cons p t =>
    obtain ⟨a, b⟩ := p
    by_cases h : a = k <;> simp [upsert, h]

/-! ## The section splitter refines the claimed specification -/

/-- Lookup after the splitter's fold: a marker's entry is exactly its
per-marker value, independent of duplicates and fold order. -/
theorem alookup_sections_foldl (S : List (List Char)) (text : List Char) :
    ∀ (l : List (List Char)) (acc : List (List Char × List Char)) (m : List Char),
      alookup (l.foldl (fun acc mark =>
          match sectionValueCode S text mark with
          | none => acc
          | some v => upsert acc mark v) acc) m =
        match sectionValueCode S text m with
        | some v => if m ∈ l then some v else alookup acc m
        | none => alookup acc m := by
  intro l
  induction l with
  | nil =>
    intro acc m
    rcases h : sectionValueCode S text m with _ | v <;> simp [h]
  | cons a l ih =>
    intro acc m
    rw [List.foldl_cons, ih]
    rcases hm : sectionValueCode S text m with _ | v
    · rcases ha : sectionValueCode S text a with _ | w
      · simp [ha]
      · by_cases hma : m = a
        · subst hma; rw [hm] at ha; cases ha
        · simp [ha, alookup_upsert, hma]
    · by_cases hma : m = a
      · subst hma
        rw [hm]
        by_cases hl : m ∈ l <;> simp [hl, alookup_upsert]
      · rcases ha : sectionValueCode S text a with _ | w
        · simp [ha, List.mem_cons, hma]
        · simp [ha, alookup_upsert, hma, List.mem_cons]

-- hm, check below whether the `e`-fold equals the spec's minimum fold
/-- The inner `end` fold of `parse` computes the same bound as the claimed
minimum over the other markers' first occurrences. -/
theorem sectionEnd_fold_eq (rest mark : List Char) :
    ∀ (l : List (List Char)) (e : Nat),
      l.foldl (fun e nm =>
          if nm = mark then e
          else
            match strFind rest nm with
            | none => e
            | some j => if j < e then j else e) e =
        ((l.filter (· ≠ mark)).filterMap (fun m' => strFind rest m')).foldl min e := by
  intro l
  induction l with
  | nil => intro e; rfl
  | cons a l ih =>
    intro e
    rw [List.foldl_cons]
    by_cases ha : a = mark
    · simp only [ha, if_pos rfl]
      rw [ih]
      simp [List.filter_cons]
    · rcases hf : strFind rest a with _ | j
      · simp only [ha, if_neg ha, hf]
        rw [ih]
        simp [List.filter_cons, ha, List.filterMap_cons, hf]
      · simp only [ha, if_neg ha, hf]
        rw [ih]
        have hmin : (if j < e then j else e) = min e j := by
          split <;> omega
        rw [hmin]
        simp [List.filter_cons, ha, List.filterMap_cons, hf]

/-- The per-marker value computed by `parse` is the claimed section value. -/
theorem sectionValueCode_eq_spec (S : List (List Char)) (text mark : List Char) :
    sectionValueCode S text mark = specSectionValue S text mark := by
  rcases h : strFind text mark with _ | st
  · simp [sectionValueCode, specSectionValue, h]
  · simp only [sectionValueCode, specSectionValue, h, Option.map_some]
    rw [sectionEndCode, sectionEnd_fold_eq]
    rfl

/-! ## Lemmas about whitespace stripping -/

/-- Dropping while a predicate holds distributes over an append whose right
part starts with a failing element. -/
theorem dropWhile_append_cons {p : Char → Bool} {c : Char} (hc : p c = false)
    (X Y : List Char) : (X ++ c :: Y).dropWhile p = X.dropWhile p ++ c :: Y := by
  induction X with
  | nil => simp [List.dropWhile, hc]
  | cons x X ih =>
    by_cases hx : p x
    · simp [List.dropWhile, hx, ih]
    · simp [List.dropWhile, hx]

/-- Taking while a predicate holds stops exactly at the first failing
element. -/
theorem takeWhile_append_cons {p : Char → Bool} {c : Char} (hc : p c = false)
    {X : List Char} (hX : ∀ x ∈ X, p x = true) (Y : List Char) :
    (X ++ c :: Y).takeWhile p = X := by
  induction X with
  | nil => simp [List.takeWhile, hc]
  | cons x X ih =>
    have hx := hX x (List.mem_cons_self x X)
    simp only [List.cons_append, List.takeWhile_cons, hx, if_pos]
    rw [ih (fun y hy => hX y (List.mem_cons_of_mem x hy))]

/-- `stripTrailing` distributes over an append ending in a non-space
character followed by a tail. -/
theorem stripTrailing_append_cons {c : Char} (hc : pyIsSpace c = false)
    (X Y : List Char) : stripTrailing (X ++ c :: Y) = X ++ c :: stripTrailing Y := by
  unfold stripTrailing
  rw [show (X ++ c :: Y).reverse = Y.reverse ++ c :: X.reverse by simp,
      dropWhile_append_cons hc]
  simp

/-- `dropWhile` is idempotent. -/
theorem dropWhile_idem (p : Char → Bool) (l : List Char) :
    (l.dropWhile p).dropWhile p = l.dropWhile p := by
  induction l with
  | nil => rfl
  | cons x l ih =>
    by_cases hx : p x
    · simp [List.dropWhile, hx, ih]
    · simp [List.dropWhile, hx]

/-- `stripLeading` is idempotent. -/
theorem stripLeading_idem (s : List Char) :
    stripLeading (stripLeading s) = stripLeading s :=
  dropWhile_idem pyIsSpace s

/-- `stripTrailing` is idempotent. -/
theorem stripTrailing_idem (s : List Char) :
    stripTrailing (stripTrailing s) = stripTrailing s := by
  unfold stripTrailing
  rw [List.reverse_reverse, dropWhile_idem]

/-- Stripping the lead twice is stripping it once. -/
theorem pyStrip_stripLeading (s : List Char) :
    pyStrip (stripLeading s) = pyStrip s := by
  unfold pyStrip
  rw [stripLeading_idem]

/-- The head of a `dropWhile` fails the predicate. -/
theorem dropWhile_head_false {p : Char → Bool} {l m : List Char} {c : Char}
    (h : l.dropWhile p = c :: m) : p c = false := by
  induction l with
  | nil => cases h
  | cons x l ih =>
    by_cases hx : p x
    · rw [List.dropWhile_cons, if_pos hx] at h
      exact ih h
    · rw [List.dropWhile_cons, if_neg hx] at h
      cases h
      exact Bool.of_not_eq_true hx

/-- Dropping while over an all-satisfying list drops everything. -/
theorem dropWhile_eq_nil {p : Char → Bool} {l : List Char}
    (h : ∀ x ∈ l, p x = true) : l.dropWhile p = [] :=
  List.dropWhile_eq_nil_iff.mpr h

/-- Leading and trailing strips commute. -/
theorem stripLeading_stripTrailing_comm (s : List Char) :
    stripLeading (stripTrailing s) = stripTrailing (stripLeading s) := by
  rcases h : stripLeading s with _ | ⟨m, M⟩
  · -- every character of `s` is whitespace, so both sides are empty
    have hall : ∀ x ∈ s, pyIsSpace x = true := List.dropWhile_eq_nil_iff.mp h
    have hrev : ∀ x ∈ s.reverse, pyIsSpace x = true := by
      intro x hx; exact hall x (List.mem_reverse.mp hx)
    have ht : stripTrailing s = [] := by
      unfold stripTrailing
      rw [dropWhile_eq_nil hrev]
      rfl
    rw [ht]
    rfl
  · -- `s = takeWhile ++ m :: M` with the head `m` not whitespace
    have hm : pyIsSpace m = false := dropWhile_head_false h
    have hsplit : s.takeWhile pyIsSpace ++ m :: M = s := by
      rw [← h]; exact List.takeWhile_append_dropWhile pyIsSpace s
    have htk : ∀ x ∈ s.takeWhile pyIsSpace, pyIsSpace x = true :=
      fun x hx => List.mem_takeWhile_imp hx
    calc stripLeading (stripTrailing s)
        = stripLeading (stripTrailing (s.takeWhile pyIsSpace ++ m :: M)) := by rw [hsplit]
      _ = stripLeading (s.takeWhile pyIsSpace ++ m :: stripTrailing M) := by
          rw [stripTrailing_append_cons hm]
      _ = m :: stripTrailing M := by
          unfold stripLeading
          rw [dropWhile_append_cons hm, dropWhile_eq_nil htk]
          rfl
      _ = stripTrailing (m :: M) := by
          have hstep := stripTrailing_append_cons hm [] M
          simpa using hstep.symm

/-- Stripping the tail twice is stripping it once. -/
theorem pyStrip_stripTrailing (s : List Char) :
    pyStrip (stripTrailing s) = pyStrip s := by
  unfold pyStrip
  rw [stripLeading_stripTrailing_comm, stripTrailing_idem]

/-- The stripped string is a sublist of the original. -/
theorem pyStrip_sublist (s : List Char) : (pyStrip s).Sublist s := by
  have h1 : (stripLeading s).Sublist s := List.dropWhile_sublist pyIsSpace
  have h2 : (stripTrailing (stripLeading s)).Sublist (stripLeading s) := by
    have := List.dropWhile_sublist (l := (stripLeading s).reverse) pyIsSpace
    have h3 := this.reverse
    rw [List.reverse_reverse] at h3
    exact h3
  exact h2.trans h1

/-- An occurrence in the leading-stripped string occurs in the original. -/
theorem occursIn_stripLeading {p s : List Char}
    (h : occursIn p (stripLeading s)) : occursIn p s := by
  obtain ⟨a, b, hab⟩ := occursIn_iff_append.mp h
  apply occursIn_iff_append.mpr
  refine ⟨s.takeWhile pyIsSpace ++ a, b, ?_⟩
  conv_lhs => rw [← List.takeWhile_append_dropWhile pyIsSpace s]
  rw [show s.dropWhile pyIsSpace = stripLeading s from rfl, hab]
  simp

/-- An occurrence in the trailing-stripped string occurs in the original. -/
theorem occursIn_stripTrailing {p s : List Char}
    (h : occursIn p (stripTrailing s)) : occursIn p s := by
  obtain ⟨a, b, hab⟩ := occursIn_iff_append.mp h
  apply occursIn_iff_append.mpr
  refine ⟨a, b ++ (s.reverse.takeWhile pyIsSpace).reverse, ?_⟩
  have hs : s = stripTrailing s ++ (s.reverse.takeWhile pyIsSpace).reverse := by
    unfold stripTrailing
    rw [← List.reverse_append, List.takeWhile_append_dropWhile, List.reverse_reverse]
  conv_lhs => rw [hs]
  rw [hab]
  simp

/-- An occurrence in the stripped string occurs in the original. -/
theorem occursIn_pyStrip {p s : List Char} (h : occursIn p (pyStrip s)) :
    occursIn p s :=
  occursIn_stripLeading (occursIn_stripTrailing h)

/-! ## `extract_meta` refines the claimed specification -/

/-- When a line contains `=`, dropping its non-`=` prefix reaches the first
`=`. -/
theorem dropWhile_ne_eq_cons {line : List Char} (h : '=' ∈ line) :
    ∃ B, line.dropWhile (· ≠ '=') = '=' :: B := by
  induction line with
  | nil => cases h
  | cons c t ih =>
    by_cases hc : c = '='
    · subst hc
      refine ⟨t, ?_⟩
      rw [List.dropWhile_cons, if_neg (by decide)]
    · have ht : '=' ∈ t := by
        rcases List.mem_cons.mp h with h' | h'
        · exact absurd h'.symm hc
        · exact h'
      obtain ⟨B, hB⟩ := ih ht
      refine ⟨B, ?_⟩
      rw [List.dropWhile_cons, if_pos (decide_eq_true hc), hB]

/-- One meta line behaves as the claim describes: a line with `=` stores the
trimmed pair split at the first `=`; any other line contributes nothing. -/
theorem metaStep_eq (d : List (List Char × List Char)) (line : List Char) :
    metaStep d line =
      if '=' ∈ line then upsert d (specMetaPair line).1 (specMetaPair line).2
      else d := by
  by_cases hm : '=' ∈ line
  · obtain ⟨B, hB⟩ := dropWhile_ne_eq_cons hm
    have hline : line.takeWhile (· ≠ '=') ++ '=' :: B = line := by
      rw [← hB]; exact List.takeWhile_append_dropWhile _ line
    have hAne : ∀ x ∈ line.takeWhile (· ≠ '='), x ≠ '=' := by
      intro x hx
      have hx' := List.mem_takeWhile_imp hx
      simpa using hx'
    have hs : pyIsSpace '=' = false := by decide
    have heq : pyStrip line =
        stripLeading (line.takeWhile (· ≠ '=')) ++ '=' :: stripTrailing B := by
      conv_lhs => rw [← hline]
      unfold pyStrip
      rw [show stripLeading (line.takeWhile (· ≠ '=') ++ '=' :: B) =
            stripLeading (line.takeWhile (· ≠ '=')) ++ '=' :: B from
          dropWhile_append_cons hs _ _,
        stripTrailing_append_cons hs]
    have hmem : '=' ∈ pyStrip line := by rw [heq]; simp
    have hsubAne : ∀ x ∈ stripLeading (line.takeWhile (· ≠ '=')),
        decide (x ≠ '=') = true := by
      intro x hx
      exact decide_eq_true
        (hAne x ((List.dropWhile_sublist pyIsSpace).subset hx))
    have hkey : (pyStrip line).takeWhile (· ≠ '=') =
        stripLeading (line.takeWhile (· ≠ '=')) := by
      rw [heq]
      exact takeWhile_append_cons (by decide) hsubAne _
    have hval : ((pyStrip line).dropWhile (· ≠ '=')).tail = stripTrailing B := by
      rw [heq, dropWhile_append_cons (by decide),
        dropWhile_eq_nil hsubAne]
      rfl
    rw [metaStep]
    simp only [hmem, if_pos, hm, hkey, hval, specMetaPair]
    rw [pyStrip_stripLeading, pyStrip_stripTrailing, hB]
    rfl
  · have hnot : '=' ∉ pyStrip line := fun hx => hm ((pyStrip_sublist line).subset hx)
    rw [metaStep]
    simp [hnot, hm]

/-- The meta loop over a list of lines equals the claimed fold over the lines
that contain `=`. -/
theorem meta_foldl :
    ∀ (lines : List (List Char)) (d : List (List Char × List Char)),
      lines.foldl metaStep d =
        ((lines.filter (fun l => '=' ∈ l)).map specMetaPair).foldl
          (fun d p => upsert d p.1 p.2) d := by
  intro lines
  induction lines with
  | nil => intro d; rfl
  | cons l ls ih =>
    intro d
    rw [List.foldl_cons, metaStep_eq]
    by_cases hl : '=' ∈ l
    · simp only [hl, if_pos, List.filter_cons, decide_eq_true hl, List.map_cons,
        List.foldl_cons]
      exact ih _
    · simp only [hl, if_neg, List.filter_cons, decide_eq_false hl]
      simpa using ih d

/-- The upsert fold of a nonempty entry list is nonempty. -/
theorem foldl_upsert_ne_nil :
    ∀ (es : List (List Char × List Char)) (d : List (List Char × List Char)),
      d ≠ [] → es.foldl (fun d p => upsert d p.1 p.2) d ≠ [] := by
  intro es
  induction es with
  | nil => intro d hd; exact hd
  | cons p ps ih =>
    intro d _
    exact ih (upsert d p.1 p.2) (upsert_ne_nil d p.1 p.2)

/-! ## Remaining helper lemmas -/

/-- When no marker occurs in the text the splitter returns the empty dict. -/
theorem splitSections_eq_nil {S : List (List Char)} {text : List Char}
    (h : ∀ m ∈ S, strFind text m = none) : splitSections S text = [] := by
  have aux : ∀ (l : List (List Char)) (acc : List (List Char × List Char)),
      (∀ m ∈ l, strFind text m = none) →
      l.foldl (fun acc mark =>
        match sectionValueCode S text mark with
        | none => acc
        | some v => upsert acc mark v) acc = acc := by
    intro l
    induction l with
    | nil => intro acc _; rfl
    | cons a l ih =>
      intro acc hl
      rw [List.foldl_cons]
      have ha : sectionValueCode S text a = none := by
        rw [sectionValueCode, hl a (List.mem_cons_self a l)]
      rw [ha]
      exact ih acc (fun m hm => hl m (List.mem_cons_of_mem a hm))
  exact aux S [] h

/-- `dropWhile` drops exactly the length of `takeWhile`. -/
theorem dropWhile_eq_drop_length (p : Char → Bool) (l : List Char) :
    l.dropWhile p = l.drop (l.takeWhile p).length := by
  induction l with
  | nil => rfl
  | cons x l ih =>
    by_cases hx : p x
    · simp [List.dropWhile_cons, List.takeWhile_cons, hx, ih]
    · simp [List.dropWhile_cons, List.takeWhile_cons, hx]

/-- The findall scan of `extract_tags` coincides with the amended claim's
description. -/
theorem findTags_eq_amended : ∀ s, findTags s = tagsAmendedC5 s := by
  intro s
  induction s using findTags.induct with
  | case1 => simp [findTags, tagsAmendedC5]
  | case2 rest run hrun ih =>
    have hrun' : rest.takeWhile (fun d => d ≠ '#' && !pyIsSpace d) = [] :=
      List.isEmpty_iff.mp hrun
    simp only [findTags, tagsAmendedC5, List.span_eq_take_drop, reduceIte]
    rw [hrun']
    simpa using ih
  | case3 rest run hrun ih =>
    have hne : ¬rest.takeWhile (fun d => d ≠ '#' && !pyIsSpace d) = [] :=
      fun he => hrun (List.isEmpty_iff.mpr he)
    simp only [findTags, tagsAmendedC5, List.span_eq_take_drop, reduceIte]
    rw [if_neg hrun, if_neg hne, dropWhile_eq_drop_length]
    rw [ih]
  | case4 c rest hc ih =>
    simp [findTags, tagsAmendedC5, hc, ih]

/-- When no examples boundary pattern matches anywhere, no boundary is
found. -/
theorem findBoundary_eq_none {pats : List (List Char)} {s : List Char}
    (h : ∀ p ∈ pats, ciFind s p = none) : findBoundary pats s = none := by
  induction pats with
  | nil => rfl
  | cons p ps ih =>
    rw [findBoundary, h p (List.mem_cons_self p ps)]
    exact ih (fun q hq => h q (List.mem_cons_of_mem p hq))

/-- Tempering always leaves the output index positive. -/
theorem mtNext_idx_pos (g : MTState) : 1 ≤ (mtNext g).2.idx := by
  rw [mtNext]
  exact Nat.succ_le_succ (Nat.zero_le _)

/-- The rejection loop's final state has positive index. -/
theorem randbelowGo_idx_pos :
    ∀ (fuel k n : Nat) (g : MTState), 1 ≤ (randbelowGo fuel k n g).2.idx := by
  intro fuel
  induction fuel with
  | zero => intro k n g; exact mtNext_idx_pos g
  | succ fuel ih =>
    intro k n g
    rw [randbelowGo]
    split
    · exact mtNext_idx_pos g
    · exact ih k n _

/-- A `random.choice` draw leaves the generator with positive index. -/
theorem pyChoice_idx_pos (seq : List (List Char)) (g : MTState) :
    1 ≤ (pyChoice seq g).2.idx :=
  randbelowGo_idx_pos 64 (pyBitLength seq.length) seq.length g

/-! ## Claim theorems -/

/-- C1: the header and footer chosen by `render_xhs_word_post` are a function
of the record's `word` field alone — two calls on records with the same word,
under any incoming process RNG states (same or different processes), select
the same header and the same footer, and calls on byte-identical records
yield byte-identical output strings. -/
theorem c1_render_deterministic (d1 d2 : WordPost) (g1 g2 : MTState)
    (h : d1.word = d2.word) :
    chooseHeaderFooter d1.word = chooseHeaderFooter d2.word ∧
    (render_xhs_word_post d1 g1).1 = (render_xhs_word_post d1 g2).1 ∧
    (render_xhs_word_post d2 g1).1 = (render_xhs_word_post d2 g2).1 :=
  ⟨by rw [h], rfl, rfl⟩

/-- Witness for C1: two distinct records sharing the word `apple`, under two
different incoming RNG states. -/
theorem c1_witness :
    chooseHeaderFooter (WordPost.mk (some (str "apple")) (some (str "n. 苹果")) none none none).word =
      chooseHeaderFooter (WordPost.mk (some (str "apple")) none none none none).word ∧
    (render_xhs_word_post (WordPost.mk (some (str "apple")) (some (str "n. 苹果")) none none none) mtZero).1 =
      (render_xhs_word_post (WordPost.mk (some (str "apple")) (some (str "n. 苹果")) none none none) ⟨[], 5⟩).1 ∧
    (render_xhs_word_post (WordPost.mk (some (str "apple")) none none none none) mtZero).1 =
      (render_xhs_word_post (WordPost.mk (some (str "apple")) none none none none) ⟨[], 5⟩).1 :=
  c1_render_deterministic _ _ mtZero ⟨[], 5⟩ rfl

/-- C2: the splitter's entry for each listed marker is exactly the claimed
section value — absent marker, no entry; otherwise the trimmed text from just
after the marker's first occurrence up to the earliest other-marker
occurrence in the remainder (or the end of the text). -/
theorem c2_split_sections_spec (S : List (List Char)) (text mark : List Char)
    (h : mark ∈ S) :
    alookup (splitSections S text) mark = specSectionValue S text mark := by
  have h1 := alookup_sections_foldl S text S [] mark
  rw [show (S.foldl (fun acc mk =>
        match sectionValueCode S text mk with
        | none => acc
        | some v => upsert acc mk v) []) = splitSections S text from rfl] at h1
  rw [h1, ← sectionValueCode_eq_spec]
  rcases hv : sectionValueCode S text mark with _ | v
  · rfl
  · simp [h]

/-- Witness for C2 at the six concrete markers and a concrete text. -/
theorem c2_witness :
    alookup (splitSections wordSections (str "【正文】正文内容 【标题】题")) (str "【正文】") =
      specSectionValue wordSections (str "【正文】正文内容 【标题】题") (str "【正文】") :=
  c2_split_sections_spec wordSections _ _ (by decide)

/-- C3 evaluated at the failing input: a well-typed `WordPost` with no `word`
key makes `render_xhs_word_post` raise `KeyError` at `data["word"]`
(line 49) instead of returning a string, contradicting the claim that
rendering is total. -/
theorem c3_render_missing_word_raises :
    (render_xhs_word_post ⟨none, none, none, none, none⟩ mtZero).1 =
      .error (.keyError (str "word")) := rfl

/-- The RNG state a render call leaves behind always has positive index: it
is the state right after the footer draw. -/
theorem render_state_idx_pos (d : WordPost) (g : MTState) :
    1 ≤ (render_xhs_word_post d g).2.idx := by
  show 1 ≤ (pyChoice DEFAULT_FOOTERS
    ((pyChoice DEFAULT_HEADERS (mtSeed (wordSeed d.word))).2)).2.idx
  exact pyChoice_idx_pos _ _

/-- C8 counterexample: rendering does observably change program state outside
its return value — at a concrete record and a concrete incoming process RNG
state, the generator state after the call (the call reseeds the process-wide
generator and draws from it) differs from the state before the call. -/
theorem c8_counterexample :
    (render_xhs_word_post ⟨some (str "apple"), none, none, none, none⟩ mtZero).2 ≠
      mtZero := by
  intro h
  have h1 := render_state_idx_pos ⟨some (str "apple"), none, none, none, none⟩ mtZero
  rw [h] at h1
  exact absurd h1 (by decide)

/-- C8 amended: parsing and rendering are pure in the sense that their entire
result — output text and final RNG state alike — is a function of the record
alone (the incoming process RNG state is discarded by the reseeding); but the
render call does overwrite the process-wide generator state rather than leave
it unchanged. -/
theorem c8_amended_result_is_function_of_record (d : WordPost) (g1 g2 : MTState) :
    render_xhs_word_post d g1 = render_xhs_word_post d g2 := rfl

/-- C10: a section value stored by the splitter contains no occurrence of any
nonempty marker other than its own. -/
theorem c10_section_value_free_of_other_markers
    (S : List (List Char)) (text mark v m' : List Char)
    (hS : ∀ m ∈ S, m ≠ [])
    (hv : alookup (splitSections S text) mark = some v)
    (hm' : m' ∈ S) (hne : m' ≠ mark) : ¬occursIn m' v := by
  have h1 := alookup_sections_foldl S text S [] mark
  rw [show (S.foldl (fun acc mk =>
        match sectionValueCode S text mk with
        | none => acc
        | some v => upsert acc mk v) []) = splitSections S text from rfl] at h1
  rw [hv] at h1
  rcases hcode : sectionValueCode S text mark with _ | w
  · rw [hcode] at h1; cases h1
  · rw [hcode] at h1
    by_cases hmem : mark ∈ S
    · simp only [hmem, if_pos] at h1
      have hvw : v = w := Option.some.inj h1
      subst hvw
      rcases hfind : strFind text mark with _ | st
      · rw [sectionValueCode, hfind] at hcode; cases hcode
      · rw [sectionValueCode, hfind] at hcode
        intro hocc
        have hval : pyStrip ((text.drop (st + mark.length)).take
            (sectionEndCode S mark (text.drop (st + mark.length)))) = v := by
          injection hcode
        have hocc2 : occursIn m' ((text.drop (st + mark.length)).take
            (sectionEndCode S mark (text.drop (st + mark.length)))) := by
          rw [← hval] at hocc
          exact occursIn_pyStrip hocc
        obtain ⟨a, b, hab⟩ := occursIn_iff_append.mp hocc2
        have hdrop : (((text.drop (st + mark.length)).drop a.length).take m'.length) = m' := by
          have hresteq : text.drop (st + mark.length) =
              a ++ (m' ++ (b ++ (text.drop (st + mark.length)).drop
                (sectionEndCode S mark (text.drop (st + mark.length))))) := by
            conv_lhs => rw [← List.take_append_drop
              (sectionEndCode S mark (text.drop (st + mark.length)))
              (text.drop (st + mark.length))]
            rw [hab]
            simp [List.append_assoc]
          conv_lhs => rw [hresteq]
          rw [List.drop_left, List.take_left]
        obtain ⟨j, hj, hjle⟩ := strFind_le hdrop
        have hjmem : j ∈ ((S.filter (· ≠ mark)).filterMap
            (fun q => strFind (text.drop (st + mark.length)) q)) :=
          List.mem_filterMap.mpr ⟨m', List.mem_filter.mpr ⟨hm', by simp [hne]⟩, hj⟩
        have hej : sectionEndCode S mark (text.drop (st + mark.length)) ≤ j := by
          rw [sectionEndCode, sectionEnd_fold_eq]
          exact foldl_min_le_mem _ hjmem
        have hlen : a.length + m'.length ≤
            sectionEndCode S mark (text.drop (st + mark.length)) := by
          have hlab := congrArg List.length hab
          simp only [List.length_take, List.length_append] at hlab
          omega
        have hm0 : m'.length = 0 := by omega
        exact hS m' hm' (List.eq_nil_of_length_eq_zero hm0)
    · simp only [hmem, if_neg] at h1
      cases h1

/-- Witness for C10: in a concrete split, the body section's value contains
no occurrence of the title marker. -/
theorem c10_witness : ¬occursIn (str "【标题】") (str "B") :=
  c10_section_value_free_of_other_markers wordSections
    (str "【标题】T 【正文】B") (str "【正文】") (str "B") (str "【标题】")
    (by decide) (by decide) (by decide) (by decide)

/-- C4: parsing is total and degrades gracefully — for every input text and
word the embedded `WordLearningParser.parse` (a total function; no operation
in it can raise) returns a record carrying the word, its tag list is never
empty (defaults are substituted), and on marker-free input every field takes
its default or empty value. -/
theorem c4_parse_total_graceful (text word : List Char) :
    (word_learning_parse text word).word = word ∧
    (word_learning_parse text word).tags ≠ [] ∧
    ((∀ m ∈ wordSections, strFind text m = none) →
      word_learning_parse text word =
        ⟨word, str "📚 今天学单词：" ++ word, [], defaultTags, none, none⟩) := by
  refine ⟨rfl, ?_, ?_⟩
  · have htags : (word_learning_parse text word).tags =
        (if (extract_tags (pyStrip ((alookup (splitSections wordSections text)
              (str "【标签】")).getD []))).isEmpty
         then defaultTags
         else extract_tags (pyStrip ((alookup (splitSections wordSections text)
              (str "【标签】")).getD []))).take 8 := rfl
    rw [htags]
    rcases hcons : extract_tags (pyStrip ((alookup (splitSections wordSections text)
        (str "【标签】")).getD [])) with _ | ⟨t, ts⟩
    · decide
    · simp
  · intro h
    rw [word_learning_parse, splitSections_eq_nil h]
    have htag : findTags [] = [] := by simp [findTags]
    simp +decide [post_process_word_learning, extract_tags, extract_meta, htag,
      orElseStr, alookup, pyStrip, stripLeading, stripTrailing, defaultTags]

/-- Witness for C4 on concrete marker-free input. -/
theorem c4_witness :
    word_learning_parse (str "garbled model output") (str "habit") =
      ⟨str "habit", str "📚 今天学单词：" ++ str "habit", [], defaultTags, none, none⟩ :=
  (c4_parse_total_graceful (str "garbled model output") (str "habit")).2.2 (by decide)

/-- C5 counterexample: the claim as stated — tags extend until whitespace —
fails on the concrete tag section `#a#b`, where the extractor's pattern also
stops at the next `#`: the code yields `["a", "b"]` while the claim's reading
yields `["a#b"]`. -/
theorem c5_counterexample :
    extract_tags (str "#a#b") ≠ (tagsClaimC5 (str "#a#b")).take 8 := by
  have h1 : extract_tags (str "#a#b") = [str "a", str "b"] := by
    simp +decide [extract_tags, str, findTags]
  have h2 : (tagsClaimC5 (str "#a#b")).take 8 = [str "a#b"] := by
    simp +decide [tagsClaimC5, str]
  rw [h1, h2]
  decide

/-- C5 amended: each extracted tag is a maximal nonempty run of characters
that are neither whitespace nor another tag-prefix character, following a
tag-prefix character, in input order with no deduplication, truncated to at
most 8 entries. -/
theorem c5_amended_tags_spec (s : List Char) :
    extract_tags s = (tagsAmendedC5 s).take 8 ∧ (extract_tags s).length ≤ 8 :=
  ⟨by rw [extract_tags, findTags_eq_amended], List.length_take_le 8 (findTags s)⟩

/-- C6: `pick_unused_word` fails with `AllWordsUsedError` carrying the level
exactly when `has_posted` (at the level and prompt version) holds for every
pool word; otherwise it returns a stripped member of the unused subset — and
on the pool `["apple", "banana"]` with `has_posted` true only for `apple`,
every valid draw returns `banana`. -/
theorem c6_pick_unused_word (pool : List (List Char)) (level : List Char)
    (p : List Char → List Char → List Char → Bool) (draw : Nat) :
    (pick_unused_word pool level p draw = .error ⟨level⟩ ↔
      ∀ w ∈ pool, p (pyStrip w) level PROMPT_VERSION = true) ∧
    (draw < (unusedWords pool level p).length →
      ∃ w ∈ unusedWords pool level p,
        pick_unused_word pool level p draw = .ok (pyStrip w)) ∧
    (draw < 1 →
      pick_unused_word [str "apple", str "banana"] level
        (fun w _ _ => w == str "apple") draw = .ok (str "banana")) := by
  refine ⟨?_, ?_, ?_⟩
  · rw [pick_unused_word]
    by_cases he : (unusedWords pool level p).isEmpty
    · simp only [he, if_pos]
      constructor
      · intro _ w hw
        have hnil : unusedWords pool level p = [] := List.isEmpty_iff.mp he
        rw [unusedWords] at hnil
        have := List.filter_eq_nil_iff.mp hnil w hw
        simpa using this
      · intro _; trivial
    · simp only [he, if_neg]
      constructor
      · intro hcontra; exact absurd hcontra (by simp)
      · intro hall
        exfalso
        apply he
        apply List.isEmpty_iff.mpr
        rw [unusedWords]
        apply List.filter_eq_nil_iff.mpr
        intro w hw
        simp [hall w hw]
  · intro hdraw
    have hne : ¬(unusedWords pool level p).isEmpty := by
      intro he
      rw [List.isEmpty_iff.mp he] at hdraw
      cases hdraw
    refine ⟨(unusedWords pool level p).get ⟨draw, hdraw⟩, List.get_mem _ _ hdraw, ?_⟩
    rw [pick_unused_word]
    simp only [hne, if_neg]
    have hgd : (unusedWords pool level p).getD draw [] =
        (unusedWords pool level p).get ⟨draw, hdraw⟩ := by
      rw [List.getD_eq_getElem _ _ hdraw]
      rfl
    rw [hgd]
    simp
  · intro hdraw
    have h0 : draw = 0 := by omega
    subst h0
    rfl

/-- Witness for C6 on the claim's concrete pool and predicate. -/
theorem c6_witness :
    pick_unused_word [str "apple", str "banana"] (str "CET-4")
      (fun w _ _ => w == str "apple") 0 = .ok (str "banana") :=
  (c6_pick_unused_word [str "apple", str "banana"] (str "CET-4")
    (fun w _ _ => w == str "apple") 0).2.2 (by decide)

/-- C7: `extract_meta` behaves exactly as claimed — split into lines, store
the trimmed pair of each line containing `=` (split once at the first `=`),
ignore other lines, and return `none` exactly when zero entries were
produced. -/
theorem c7_extract_meta_spec (s : List Char) : extract_meta s = specMeta s := by
  by_cases hs : s.isEmpty
  · have h0 : s = [] := List.isEmpty_iff.mp hs
    subst h0
    rfl
  · rw [extract_meta, specMeta]
    simp only [hs, if_neg]
    rw [meta_foldl]
    rcases hE : (pySplitChar '\n' s).filter (fun l => '=' ∈ l) with _ | ⟨q, qs⟩
    · rw [hE]; rfl
    · rw [hE]
      simp only [List.map_cons, List.foldl_cons, List.isEmpty_cons]
      have hne1 : ((qs.map specMetaPair).foldl (fun d q => upsert d q.1 q.2)
          (upsert [] (specMetaPair q).1 (specMetaPair q).2)) ≠ [] :=
        foldl_upsert_ne_nil _ _ (upsert_ne_nil _ _ _)
      simp [List.isEmpty_iff, hne1]

/-- C9 (spec-modelled): if no examples-boundary pattern matches anywhere in
the body text, the extractor returns the body's first paragraph as the memory
story and empty examples and related lists. -/
theorem c9_no_examples_boundary (exPats relPats cues : List (List Char))
    (body : List Char) (h : ∀ q ∈ exPats, ciFind body q = none) :
    extractBodyFields exPats relPats cues body = (firstParagraph body, [], []) := by
  unfold extractBodyFields
  rw [findBoundary_eq_none h]

/-- Witness for C9 on a concrete single-paragraph body. -/
theorem c9_witness :
    extractBodyFields [str "实用例句"] [str "相关词汇扩展"] [] (str "只有一段不间断的叙述") =
      (firstParagraph (str "只有一段不间断的叙述"), [], []) :=
  c9_no_examples_boundary _ _ _ _ (by decide)
